import Mathlib

/-!
Verification of the follow-request scheduling engine of `bsky_follower`.

The repository contains two engine variants:
* the package variant under `internal/` (`models`, `queue`, `service`, `db`,
  `api`), and
* the monolithic variant in `main.go` (the `App` type, lines 505-1380).

We embed the data model, the two heap comparators, the Go `container/heap`
algorithms (`up`, `down`, `Push`, `Pop` from the standard library, which the
repository instantiates through `heap.Push` / `heap.Pop`), and the scheduling,
retry, rate-limit and persistence logic of both variants.  Timestamps are
modelled as integers (seconds); `time.Time.Before` is `<`, durations are
second counts (`5 * time.Minute = 300`, `time.Hour = 3600`,
`24 * time.Hour = 86400`).
-/

/-- `models.TargetUser` (internal/models, identical fields in main.go). -/
structure TargetUser where
  handle : String
  did : String
  followers : Int
  savedOn : Int
  followed : Bool
  lastChecked : Int
  followDate : Int
  priority : Int
  attempts : Int
  deriving DecidableEq, Repr, Inhabited

/-- `models.FollowQueueItem` (internal/models, identical fields in main.go).
The `Index` field used for heap bookkeeping is positional: in the list
embedding an item's index is its position, so the field is omitted. -/
structure FollowQueueItem where
  user : TargetUser
  priority : Int
  attempts : Int
  nextTry : Int
  deriving DecidableEq, Repr, Inhabited

/-- `models.FollowQueue.Less` (internal/models/part_004 lines 60-67):
higher priority first, then earlier `NextTry` first. -/
def FollowQueue.Less (a b : FollowQueueItem) : Bool :=
  if a.priority ≠ b.priority then a.priority > b.priority
  else a.nextTry < b.nextTry

/-- `FollowQueue.Less` of main.go (line 1189-1191): compares `NextTry`
only, ignoring priority. -/
def MainFollowQueue.Less (a b : FollowQueueItem) : Bool :=
  a.nextTry < b.nextTry

section GoHeap

variable {α : Type} [Inhabited α]

/-- `h.Swap(i, j)` on the list embedding of the slice backing the heap. -/
def lswap (l : List α) (i j : Nat) : List α :=
  (l.set i (l.getD j default)).set j (l.getD i default)

/-- Parent index in the implicit binary tree of `container/heap`
(`i := (j - 1) / 2`; Go's `i == j` stop test is equivalent to `j = 0`). -/
def parentIdx (j : Nat) : Nat := (j - 1) / 2

/-- `up` from Go's `container/heap`: sift the element at index `j` up. -/
def heapUp (lt : α → α → Bool) (l : List α) (j : Nat) : List α :=
  if h : j = 0 then l
  else if lt (l.getD j default) (l.getD (parentIdx j) default) then
    heapUp lt (lswap l (parentIdx j) j) (parentIdx j)
  else l
  termination_by j
  decreasing_by simp only [parentIdx]; omega

/-- The child index selected by `down` from Go's `container/heap`:
the left child `2*i+1`, or the right child `2*i+2` when it exists within
the prefix of length `n` and is `Less` than the left child. -/
def downChild (lt : α → α → Bool) (l : List α) (i n : Nat) : Nat :=
  if 2 * i + 2 < n ∧ lt (l.getD (2 * i + 2) default) (l.getD (2 * i + 1) default)
    then 2 * i + 2 else 2 * i + 1

/-- `down` from Go's `container/heap`: sift the element at index `i` down,
within the prefix of length `n`. -/
def heapDown (lt : α → α → Bool) (l : List α) (i n : Nat) : List α :=
  if h : 2 * i + 1 < n then
    if lt (l.getD (downChild lt l i n) default) (l.getD i default) then
      heapDown lt (lswap l i (downChild lt l i n)) (downChild lt l i n) n
    else l
  else l
  termination_by n - i
  decreasing_by simp only [downChild]; split <;> omega

/-- `heap.Push`: append, then sift up from the last index. -/
def heapPush (lt : α → α → Bool) (l : List α) (x : α) : List α :=
  heapUp lt (l ++ [x]) l.length

/-- `heap.Pop`: swap root and last, sift the new root down within the first
`n-1` slots, then remove and return the last element. -/
def heapPop (lt : α → α → Bool) (l : List α) : Option (α × List α) :=
  match l with
  | [] => none
  | _ :: _ =>
    let n := l.length
    let l2 := heapDown lt (lswap l 0 (n - 1)) 0 (n - 1)
    some (l2.getD (n - 1) default, l2.take (n - 1))

end GoHeap

section GoHeapLemmas

variable {α : Type} [Inhabited α]

theorem getD_eq_getElem (l : List α) {i : Nat} (h : i < l.length) (d : α) :
    l.getD i d = l[i] := by
  simp [List.getD_eq_getElem?_getD, List.getElem?_eq_getElem h]

theorem length_lswap (l : List α) (i j : Nat) : (lswap l i j).length = l.length := by
  simp [lswap]

theorem getD_lswap_snd (l : List α) {i j : Nat} (hi : i < l.length) (hj : j < l.length) :
    (lswap l i j).getD j default = l.getD i default := by
  simp [lswap, List.getD_eq_getElem?_getD, List.getElem?_set, hj]

theorem getD_lswap_fst (l : List α) {i j : Nat} (hi : i < l.length) (hj : j < l.length) :
    (lswap l i j).getD i default = l.getD j default := by
  by_cases hij : i = j
  · subst hij
    exact getD_lswap_snd l hi hj
  · simp [lswap, List.getD_eq_getElem?_getD, List.getElem?_set, hij, Ne.symm hij, hi]

theorem getD_lswap_other (l : List α) {i j k : Nat} (hki : k ≠ i) (hkj : k ≠ j) :
    (lswap l i j).getD k default = l.getD k default := by
  simp [lswap, List.getD_eq_getElem?_getD, Ne.symm hki, Ne.symm hkj,
    List.getElem?_set_ne (Ne.symm hkj), List.getElem?_set_ne (Ne.symm hki)]

theorem cons_set_perm (xs : List α) (y : α) :
    ∀ k, k < xs.length → (xs.getD k default :: xs.set k y).Perm (y :: xs) := by
  induction xs with
  | nil => intro k hk; simp at hk
  | cons z zs ih =>
    intro k hk
    cases k with
    | zero =>
      simpa using List.Perm.swap y z zs
    | succ m =>
      have h1 : (zs.getD m default :: z :: zs.set m y).Perm
          (z :: zs.getD m default :: zs.set m y) := List.Perm.swap _ _ _
      have h2 := (ih m (by simpa using hk)).cons z
      have h3 : (z :: y :: zs).Perm (y :: z :: zs) := List.Perm.swap _ _ _
      simpa using h1.trans (h2.trans h3)

theorem lswap_perm (l : List α) (i j : Nat) (hi : i < l.length) (hj : j < l.length) :
    (lswap l i j).Perm l := by
  induction l generalizing i j with
  | nil => simp at hi
  | cons x xs ih =>
    cases i with
    | zero =>
      cases j with
      | zero => simp [lswap]
      | succ k =>
        have hk : k < xs.length := by simpa using hj
        simpa [lswap] using cons_set_perm xs x k hk
    | succ m =>
      cases j with
      | zero =>
        have hm : m < xs.length := by simpa using hi
        simpa [lswap] using cons_set_perm xs x m hm
      | succ k =>
        have hm : m < xs.length := by simpa using hi
        have hk : k < xs.length := by simpa using hj
        simpa [lswap] using (ih m k hm hk).cons x

theorem parentIdx_lt {j : Nat} (h : 0 < j) : parentIdx j < j := by
  simp only [parentIdx]; omega

theorem downChild_cases (lt : α → α → Bool) (l : List α) {i n : Nat} (h : 2 * i + 1 < n) :
    (downChild lt l i n = 2 * i + 1 ∨ downChild lt l i n = 2 * i + 2) ∧
      downChild lt l i n < n ∧ i < downChild lt l i n := by
  simp only [downChild]; split <;> omega

theorem heapUp_perm (lt : α → α → Bool) :
    ∀ j (l : List α), j < l.length → (heapUp lt l j).Perm l := by
  intro j
  induction j using Nat.strong_induction_on with
  | _ j ih =>
    intro l hj
    rw [heapUp]
    split
    · exact List.Perm.refl l
    · rename_i h0
      split
      · rename_i hlt
        have hp : parentIdx j < j := parentIdx_lt (by omega)
        have hperm := lswap_perm l (parentIdx j) j (by omega) hj
        exact (ih _ hp _ (by rw [length_lswap]; omega)).trans hperm
      · exact List.Perm.refl l

theorem heapDown_perm (lt : α → α → Bool) (n : Nat) :
    ∀ fuel i (l : List α), n - i ≤ fuel → n ≤ l.length → (heapDown lt l i n).Perm l := by
  intro fuel
  induction fuel with
  | zero =>
    intro i l hfuel hn
    rw [heapDown]
    split
    · omega
    · exact List.Perm.refl l
  | succ fuel ih =>
    intro i l hfuel hn
    rw [heapDown]
    split
    · rename_i hj1
      obtain ⟨hcase, hjn, hij⟩ := downChild_cases lt l hj1
      split
      · rename_i hlt
        have hperm := lswap_perm l i (downChild lt l i n) (by omega) (by omega)
        exact (ih _ _ (by omega) (by rw [length_lswap]; omega)).trans hperm
      · exact List.Perm.refl l
    · exact List.Perm.refl l

theorem length_heapUp (lt : α → α → Bool) (l : List α) (j : Nat) (hj : j < l.length) :
    (heapUp lt l j).length = l.length :=
  (heapUp_perm lt j l hj).length_eq

theorem length_heapDown (lt : α → α → Bool) (l : List α) (i n : Nat) (hn : n ≤ l.length) :
    (heapDown lt l i n).length = l.length :=
  (heapDown_perm lt n (n - i) i l le_rfl hn).length_eq

/-- `down` never touches entries at or beyond the bound `n`. -/
theorem getD_heapDown_of_ge (lt : α → α → Bool) (n : Nat) :
    ∀ fuel i (l : List α) k, n - i ≤ fuel → n ≤ k →
      (heapDown lt l i n).getD k default = l.getD k default := by
  intro fuel
  induction fuel with
  | zero =>
    intro i l k hfuel hk
    rw [heapDown]
    split
    · omega
    · rfl
  | succ fuel ih =>
    intro i l k hfuel hk
    rw [heapDown]
    split
    · rename_i hj1
      obtain ⟨hcase, hjn, hij⟩ := downChild_cases lt l hj1
      split
      · rename_i hlt
        rw [ih _ _ k (by omega) hk]
        exact getD_lswap_other l (by omega) (by omega)
      · rfl
    · rfl

theorem heapPush_perm (lt : α → α → Bool) (l : List α) (x : α) :
    (heapPush lt l x).Perm (x :: l) := by
  have h1 := heapUp_perm lt l.length (l ++ [x]) (by simp)
  exact h1.trans (List.perm_append_singleton x l)

theorem heapPop_eq_none_iff (lt : α → α → Bool) (l : List α) :
    heapPop lt l = none ↔ l = [] := by
  cases l <;> simp [heapPop]

theorem heapPop_some (lt : α → α → Bool) {l : List α} {x : α} {rest : List α}
    (h : heapPop lt l = some (x, rest)) :
    (x :: rest).Perm l ∧ rest.length + 1 = l.length ∧ x = l.getD 0 default := by
  cases l with
  | nil => simp [heapPop] at h
  | cons y ys =>
    simp only [heapPop] at h
    set l : List α := y :: ys with hl
    set n : Nat := l.length with hn
    have hnpos : 0 < n := by simp [hn, hl]
    have hl1len : (lswap l 0 (n - 1)).length = n := by rw [length_lswap]
    set l2 : List α := heapDown lt (lswap l 0 (n - 1)) 0 (n - 1) with hl2
    have hl2perm : l2.Perm l :=
      (heapDown_perm lt (n - 1) (n - 1) 0 _ le_rfl (by omega)).trans
        (lswap_perm l 0 (n - 1) (by omega) (by omega))
    have hl2len : l2.length = n := hl2perm.length_eq
    have hroot : l2.getD (n - 1) default = l.getD 0 default := by
      rw [hl2, getD_heapDown_of_ge lt (n - 1) (n - 1) 0 _ (n - 1) le_rfl le_rfl]
      exact getD_lswap_snd l (by omega) (by omega)
    obtain ⟨hx, hrest⟩ : l2.getD (n - 1) default = x ∧ l2.take (n - 1) = rest := by
      constructor <;> [exact congrArg Prod.fst (Option.some.inj h);
        exact congrArg Prod.snd (Option.some.inj h)]
    have hsplit : l2 = l2.take (n - 1) ++ [x] := by
      conv_lhs => rw [← List.take_append_drop (n - 1) l2]
      congr 1
      rw [List.drop_eq_getElem_cons (by omega)]
      have hdropn : l2.drop n = [] := by
        rw [← hl2len]; exact List.drop_length l2
      have : n - 1 + 1 = n := by omega
      rw [this, hdropn, ← getD_eq_getElem l2 (by omega) default, hx]
    refine ⟨?_, ?_, by rw [← hx, hroot]⟩
    · rw [← hrest]
      have h1 : (x :: l2.take (n - 1)).Perm (l2.take (n - 1) ++ [x]) :=
        (List.perm_append_singleton x _).symm
      rw [← hsplit] at h1
      exact h1.trans hl2perm
    · rw [← hrest]
      have : (l2.take (n - 1)).length = n - 1 := by
        rw [List.length_take]; omega
      omega

end GoHeapLemmas

section PopAll

variable {α : Type} [Inhabited α]

/-- Repeatedly `heap.Pop` until the queue is empty: the dispatch order of a
queue state when every item is processed. -/
def popAll (lt : α → α → Bool) (l : List α) : List α :=
  match h : heapPop lt l with
  | none => []
  | some (x, rest) => x :: popAll lt rest
  termination_by l.length
  decreasing_by
    have := (heapPop_some lt h).2.1
    omega

theorem popAll_nil (lt : α → α → Bool) : popAll lt ([] : List α) = [] := by
  rw [popAll]
  split
  · rfl
  · rename_i heq
    simp [heapPop] at heq

theorem popAll_of_heapPop_some (lt : α → α → Bool) {l rest : List α} {x : α}
    (h : heapPop lt l = some (x, rest)) :
    popAll lt l = x :: popAll lt rest := by
  rw [popAll]
  split
  · rename_i heq
    rw [heq] at h
    exact absurd h (by simp)
  · rename_i x' rest' heq
    rw [heq] at h
    obtain ⟨h1, h2⟩ := Prod.mk.injEq .. ▸ Option.some.inj h
    rw [h1, h2]

theorem popAll_perm (lt : α → α → Bool) :
    ∀ (N : Nat) (l : List α), l.length ≤ N → (popAll lt l).Perm l := by
  intro N
  induction N with
  | zero =>
    intro l hlen
    have : l = [] := List.length_eq_zero.mp (by omega)
    subst this
    rw [popAll_nil]
  | succ N ih =>
    intro l hlen
    cases hp : heapPop lt l with
    | none =>
      have : l = [] := (heapPop_eq_none_iff lt l).mp hp
      subst this
      rw [popAll_nil]
    | some p =>
      obtain ⟨x, rest⟩ := p
      obtain ⟨hperm, hlen2, _⟩ := heapPop_some lt hp
      rw [popAll_of_heapPop_some lt hp]
      exact ((ih rest (by omega)).cons x).trans hperm

end PopAll

section HeapInvariant

variable {α : Type} [Inhabited α] {lt : α → α → Bool}

/-- The binary min-heap invariant (w.r.t. `lt`) on the first `n` entries:
no child is `lt` its parent. -/
def heapInvTo (lt : α → α → Bool) (l : List α) (n : Nat) : Prop :=
  ∀ j, 0 < j → j < n → lt (l.getD j default) (l.getD (parentIdx j) default) = false

/-- The binary min-heap invariant on the whole backing list: the invariant
Go's `container/heap` maintains for the repository's queues. -/
def heapInv (lt : α → α → Bool) (l : List α) : Prop :=
  heapInvTo lt l l.length

theorem lt_irrefl_of_asym (hA : ∀ a b : α, lt a b = true → lt b a = false) (a : α) :
    lt a a = false := by
  cases h : lt a a
  · rfl
  · exact h.symm.trans (hA a a h)

theorem heapInvTo_root_min (hA : ∀ a b : α, lt a b = true → lt b a = false)
    (hNT : ∀ a b c : α, lt a b = false → lt b c = false → lt a c = false)
    {l : List α} {n : Nat} (hInv : heapInvTo lt l n) :
    ∀ k, k < n → lt (l.getD k default) (l.getD 0 default) = false := by
  intro k
  induction k using Nat.strong_induction_on with
  | _ k ih =>
    intro hk
    rcases Nat.eq_zero_or_pos k with h0 | h0
    · subst h0
      exact lt_irrefl_of_asym hA _
    · have h1 := hInv k h0 hk
      have h2 := ih (parentIdx k) (parentIdx_lt h0) (by have := parentIdx_lt h0; omega)
      exact hNT _ _ _ h1 h2

theorem getD_append_left (l l2 : List α) {m : Nat} (h : m < l.length) (d : α) :
    (l ++ l2).getD m d = l.getD m d := by
  simp [List.getD_eq_getElem?_getD, List.getElem?_append, h]

theorem getD_take (l : List α) {t m : Nat} (h : m < t) (d : α) :
    (l.take t).getD m d = l.getD m d := by
  simp [List.getD_eq_getElem?_getD, List.getElem?_take, h]

/-- Correctness of `up`: if every heap edge except possibly the one into `j`
is ordered, and the children of `j` are already bounded by the parent of `j`,
then sifting up from `j` restores the full heap invariant. -/
theorem heapUp_inv (hA : ∀ a b : α, lt a b = true → lt b a = false)
    (hT : ∀ a b c : α, lt a b = true → lt b c = true → lt a c = true)
    (hNT : ∀ a b c : α, lt a b = false → lt b c = false → lt a c = false) :
    ∀ j (l : List α), j < l.length →
    (∀ k, 0 < k → k < l.length → k ≠ j →
      lt (l.getD k default) (l.getD (parentIdx k) default) = false) →
    (0 < j → ∀ c, c < l.length → parentIdx c = j →
      lt (l.getD c default) (l.getD (parentIdx j) default) = false) →
    heapInv lt (heapUp lt l j) := by
  intro j
  induction j using Nat.strong_induction_on with
  | _ j ih =>
    intro l hj h1 h2
    rw [heapUp]
    split
    · rename_i h0
      subst h0
      intro k hk0 hklen
      exact h1 k hk0 hklen (by omega)
    · rename_i h0
      split
      · rename_i hlt
        have hj0 : 0 < j := by omega
        have hpj : parentIdx j < j := parentIdx_lt hj0
        apply ih (parentIdx j) hpj (lswap l (parentIdx j) j)
          (by rw [length_lswap]; omega)
        · intro k hk0 hklen hkne
          rw [length_lswap] at hklen
          by_cases hkj : k = j
          · subst hkj
            rw [getD_lswap_snd l (by omega) hj,
              show parentIdx k = parentIdx k from rfl]
            rw [getD_lswap_fst l (by omega) hj]
            exact hA _ _ hlt
          · have hLk : (lswap l (parentIdx j) j).getD k default = l.getD k default :=
              getD_lswap_other l hkne hkj
            by_cases hpkj : parentIdx k = j
            · rw [hLk, hpkj, getD_lswap_snd l (by omega) hj]
              have := h2 hj0 k hklen hpkj
              exact this
            · by_cases hpki : parentIdx k = parentIdx j
              · rw [hLk, hpki, getD_lswap_fst l (by omega) hj]
                have hbase := h1 k hk0 hklen hkj
                rw [hpki] at hbase
                cases hc : lt (l.getD k default) (l.getD j default)
                · rfl
                · have := hT _ _ _ hc hlt
                  rw [hbase] at this
                  exact this.symm
              · rw [hLk, getD_lswap_other l hpki hpkj]
                exact h1 k hk0 hklen hkj
        · intro hi0 c hc hpc
          rw [length_lswap] at hc
          have hc0 : 0 < c := by
            by_contra hcc
            have hczero : c = 0 := by omega
            rw [hczero] at hpc
            simp only [parentIdx] at hpc hi0
            omega
          have hic : parentIdx j < c := hpc ▸ parentIdx_lt hc0
          have hppi : parentIdx (parentIdx j) < parentIdx j := parentIdx_lt hi0
          have hLpi : (lswap l (parentIdx j) j).getD (parentIdx (parentIdx j)) default
              = l.getD (parentIdx (parentIdx j)) default :=
            getD_lswap_other l (by omega) (by omega)
          by_cases hcj : c = j
          · rw [hcj, getD_lswap_snd l (by omega) hj, hLpi]
            exact h1 (parentIdx j) hi0 (by omega) (by omega)
          · rw [getD_lswap_other l (by omega) hcj, hLpi]
            have hcpar := h1 c hc0 hc hcj
            rw [hpc] at hcpar
            have hipar := h1 (parentIdx j) hi0 (by omega) (by omega)
            exact hNT _ _ _ hcpar hipar
      · rename_i hnlt
        intro k hk0 hklen
        by_cases hkj : k = j
        · subst hkj
          simpa using hnlt
        · exact h1 k hk0 hklen hkj

/-- `heap.Push` preserves the heap invariant. -/
theorem heapPush_heapInv (hA : ∀ a b : α, lt a b = true → lt b a = false)
    (hT : ∀ a b c : α, lt a b = true → lt b c = true → lt a c = true)
    (hNT : ∀ a b c : α, lt a b = false → lt b c = false → lt a c = false)
    {l : List α} (hInv : heapInv lt l) (x : α) :
    heapInv lt (heapPush lt l x) := by
  apply heapUp_inv hA hT hNT l.length (l ++ [x]) (by simp)
  · intro k hk0 hklen hkne
    have hk : k < l.length := by
      simp only [List.length_append, List.length_singleton] at hklen
      omega
    have hpk : parentIdx k < l.length := by
      have := parentIdx_lt hk0
      omega
    rw [getD_append_left l [x] hk, getD_append_left l [x] hpk]
    exact hInv k hk0 hk
  · intro hj0 c hc hpc
    exfalso
    simp only [List.length_append, List.length_singleton] at hc
    simp only [parentIdx] at hpc
    omega

/-- The child not selected by `down` is not `lt` the selected one. -/
theorem downChild_sibling (hA : ∀ a b : α, lt a b = true → lt b a = false)
    {l : List α} {i n : Nat} (hj1 : 2 * i + 1 < n)
    {k : Nat} (hk : k = 2 * i + 1 ∨ k = 2 * i + 2) (hkn : k < n)
    (hkj : k ≠ downChild lt l i n) :
    lt (l.getD k default) (l.getD (downChild lt l i n) default) = false := by
  by_cases hcond : 2 * i + 2 < n ∧
      lt (l.getD (2 * i + 2) default) (l.getD (2 * i + 1) default) = true
  · simp only [downChild, if_pos hcond] at hkj ⊢
    have hk1 : k = 2 * i + 1 := by
      rcases hk with h | h
      · exact h
      · exact absurd h hkj
    rw [hk1]
    exact hA _ _ hcond.2
  · simp only [downChild, if_neg hcond] at hkj ⊢
    have hk2 : k = 2 * i + 2 := by
      rcases hk with h | h
      · exact absurd h hkj
      · exact h
    have hfalse : lt (l.getD (2 * i + 2) default) (l.getD (2 * i + 1) default) = false := by
      rcases Bool.eq_false_or_eq_true
          (lt (l.getD (2 * i + 2) default) (l.getD (2 * i + 1) default)) with h | h
      · exact absurd ⟨by omega, h⟩ hcond
      · exact h
    rw [hk2]
    exact hfalse

/-- Correctness of `down`: if every heap edge within the first `n` entries
except the edges out of `i` is ordered, and the children of `i` are bounded
by the parent of `i`, sifting down restores the invariant on the prefix. -/
theorem heapDown_inv (hA : ∀ a b : α, lt a b = true → lt b a = false)
    (hT : ∀ a b c : α, lt a b = true → lt b c = true → lt a c = true)
    (hNT : ∀ a b c : α, lt a b = false → lt b c = false → lt a c = false)
    (n : Nat) :
    ∀ fuel i (l : List α), n - i ≤ fuel → n ≤ l.length →
    (∀ k, 0 < k → k < n → parentIdx k ≠ i →
      lt (l.getD k default) (l.getD (parentIdx k) default) = false) →
    (0 < i → ∀ c, c < n → parentIdx c = i →
      lt (l.getD c default) (l.getD (parentIdx i) default) = false) →
    heapInvTo lt (heapDown lt l i n) n := by
  intro fuel
  induction fuel with
  | zero =>
    intro i l hfuel hn h1 h2
    rw [heapDown]
    split
    · omega
    · intro k hk0 hkn
      by_cases hpk : parentIdx k = i
      · exfalso
        have := parentIdx_lt hk0
        omega
      · exact h1 k hk0 hkn hpk
  | succ fuel ih =>
    intro i l hfuel hn h1 h2
    rw [heapDown]
    split
    · rename_i hj1
      obtain ⟨hdc, hdn, hdi⟩ := downChild_cases lt l hj1
      have hpj : parentIdx (downChild lt l i n) = i := by
        simp only [parentIdx]
        omega
      split
      · rename_i hlt
        apply ih (downChild lt l i n) (lswap l i (downChild lt l i n)) (by omega)
          (by rw [length_lswap]; omega)
        · intro k hk0 hkn hpk
          by_cases hkj : k = downChild lt l i n
          · rw [hkj, hpj, getD_lswap_snd l (by omega) (by omega),
              getD_lswap_fst l (by omega) (by omega)]
            exact hA _ _ hlt
          · by_cases hki : k = i
            · have hi0 : 0 < i := by omega
              have hpi : parentIdx i < i := parentIdx_lt hi0
              rw [hki, getD_lswap_fst l (by omega) (by omega),
                getD_lswap_other l (by omega) (by omega)]
              exact h2 hi0 (downChild lt l i n) (by omega) hpj
            · have hLk : (lswap l i (downChild lt l i n)).getD k default
                  = l.getD k default := getD_lswap_other l hki hkj
              by_cases hpki : parentIdx k = i
              · rw [hLk, hpki, getD_lswap_fst l (by omega) (by omega)]
                have hsib : k = 2 * i + 1 ∨ k = 2 * i + 2 := by
                  simp only [parentIdx] at hpki
                  omega
                exact downChild_sibling hA hj1 hsib hkn hkj
              · rw [hLk, getD_lswap_other l hpki hpk]
                exact h1 k hk0 hkn hpki
        · intro hj0 c hc hpc
          have hc0 : 0 < c := by
            by_contra hcc
            have : c = 0 := by omega
            rw [this] at hpc
            simp only [parentIdx] at hpc
            omega
          have hcgt : downChild lt l i n < c := hpc ▸ parentIdx_lt hc0
          rw [getD_lswap_other l (by omega) (by omega), hpj,
            getD_lswap_fst l (by omega) (by omega), ← hpc]
          exact h1 c hc0 hc (by omega)
      · rename_i hnlt
        have hnlt2 : lt (l.getD (downChild lt l i n) default) (l.getD i default) = false := by
          simpa using hnlt
        intro k hk0 hkn
        by_cases hpk : parentIdx k = i
        · have hsib : k = 2 * i + 1 ∨ k = 2 * i + 2 := by
            simp only [parentIdx] at hpk
            omega
          rw [hpk]
          by_cases hkj : k = downChild lt l i n
          · rw [hkj]
            exact hnlt2
          · have hs := downChild_sibling hA (l := l) hj1 hsib hkn hkj
            exact hNT _ _ _ hs hnlt2
        · exact h1 k hk0 hkn hpk
    · intro k hk0 hkn
      by_cases hpk : parentIdx k = i
      · exfalso
        simp only [parentIdx] at hpk
        omega
      · exact h1 k hk0 hkn hpk

/-- `heap.Pop` preserves the heap invariant on the remaining queue. -/
theorem heapPop_heapInv (hA : ∀ a b : α, lt a b = true → lt b a = false)
    (hT : ∀ a b c : α, lt a b = true → lt b c = true → lt a c = true)
    (hNT : ∀ a b c : α, lt a b = false → lt b c = false → lt a c = false)
    {l : List α} (hInv : heapInv lt l)
    {x : α} {rest : List α} (h : heapPop lt l = some (x, rest)) :
    heapInv lt rest := by
  cases l with
  | nil => simp [heapPop] at h
  | cons y ys =>
    simp only [heapPop] at h
    set l : List α := y :: ys with hl
    set n : Nat := l.length with hn
    have hnpos : 0 < n := by rw [hn, hl]; simp
    have hrest : (heapDown lt (lswap l 0 (n - 1)) 0 (n - 1)).take (n - 1) = rest :=
      congrArg Prod.snd (Option.some.inj h)
    have hinv2 : heapInvTo lt (heapDown lt (lswap l 0 (n - 1)) 0 (n - 1)) (n - 1) := by
      apply heapDown_inv hA hT hNT (n - 1) (n - 1) 0 _ le_rfl
        (by rw [length_lswap]; omega)
      · intro k hk0 hkn hpk
        have hpklt : parentIdx k < k := parentIdx_lt hk0
        rw [getD_lswap_other l (by omega) (by omega),
          getD_lswap_other l (by omega) (by omega)]
        exact hInv k hk0 (by omega)
      · intro h0
        omega
    have hlen2 : (heapDown lt (lswap l 0 (n - 1)) 0 (n - 1)).length = n := by
      rw [length_heapDown lt _ 0 (n - 1) (by rw [length_lswap]; omega), length_lswap]
    rw [← hrest]
    intro k hk0 hklen
    rw [List.length_take, hlen2] at hklen
    have hk : k < n - 1 := by omega
    have hpk : parentIdx k < n - 1 := by
      have := parentIdx_lt hk0
      omega
    rw [getD_take _ hk, getD_take _ hpk]
    exact hinv2 k hk0 hk

/-- Popping every item from a well-formed heap yields a list sorted by the
comparator: no later item is `lt` an earlier one. -/
theorem popAll_sorted (hA : ∀ a b : α, lt a b = true → lt b a = false)
    (hT : ∀ a b c : α, lt a b = true → lt b c = true → lt a c = true)
    (hNT : ∀ a b c : α, lt a b = false → lt b c = false → lt a c = false) :
    ∀ (N : Nat) (l : List α), l.length ≤ N → heapInv lt l →
      (popAll lt l).Pairwise (fun a b => lt b a = false) := by
  intro N
  induction N with
  | zero =>
    intro l hlen _
    have : l = [] := List.length_eq_zero.mp (by omega)
    subst this
    rw [popAll_nil]
    exact List.Pairwise.nil
  | succ N ih =>
    intro l hlen hInv
    cases hp : heapPop lt l with
    | none =>
      have : l = [] := (heapPop_eq_none_iff lt l).mp hp
      subst this
      rw [popAll_nil]
      exact List.Pairwise.nil
    | some p =>
      obtain ⟨x, rest⟩ := p
      obtain ⟨hperm, hlen2, hx⟩ := heapPop_some lt hp
      rw [popAll_of_heapPop_some lt hp]
      refine List.Pairwise.cons ?_ (ih rest (by omega) (heapPop_heapInv hA hT hNT hInv hp))
      intro y hy
      have hyrest : y ∈ rest := (popAll_perm lt rest.length rest le_rfl).mem_iff.mp hy
      have hyl : y ∈ l := hperm.mem_iff.mp (List.mem_cons_of_mem x hyrest)
      obtain ⟨m, hm, hym⟩ := List.getElem_of_mem hyl
      have hmin := heapInvTo_root_min hA hNT hInv m hm
      rw [getD_eq_getElem l hm, hym] at hmin
      rw [hx]
      exact hmin

end HeapInvariant

/-! ## Comparator order properties -/

/-- Characterization of the `models.FollowQueue` comparator. -/
theorem FollowQueueLess_iff (a b : FollowQueueItem) :
    FollowQueue.Less a b = true ↔
      b.priority < a.priority ∨
        (a.priority = b.priority ∧ a.nextTry < b.nextTry) := by
  simp only [FollowQueue.Less]
  by_cases h : a.priority = b.priority <;> simp [h] <;> omega

theorem FollowQueueLess_asym (a b : FollowQueueItem) :
    FollowQueue.Less a b = true → FollowQueue.Less b a = false := by
  intro h
  rw [FollowQueueLess_iff] at h
  rw [← Bool.not_eq_true, FollowQueueLess_iff]
  omega

theorem FollowQueueLess_trans (a b c : FollowQueueItem) :
    FollowQueue.Less a b = true → FollowQueue.Less b c = true →
      FollowQueue.Less a c = true := by
  intro h1 h2
  rw [FollowQueueLess_iff] at h1 h2 ⊢
  omega

theorem FollowQueueLess_negtrans (a b c : FollowQueueItem) :
    FollowQueue.Less a b = false → FollowQueue.Less b c = false →
      FollowQueue.Less a c = false := by
  intro h1 h2
  rw [← Bool.not_eq_true, FollowQueueLess_iff] at h1 h2 ⊢
  omega

theorem MainLess_asym (a b : FollowQueueItem) :
    MainFollowQueue.Less a b = true → MainFollowQueue.Less b a = false := by
  simp only [MainFollowQueue.Less]
  simp
  omega

theorem MainLess_trans (a b c : FollowQueueItem) :
    MainFollowQueue.Less a b = true → MainFollowQueue.Less b c = true →
      MainFollowQueue.Less a c = true := by
  simp only [MainFollowQueue.Less]
  simp
  omega

theorem MainLess_negtrans (a b c : FollowQueueItem) :
    MainFollowQueue.Less a b = false → MainFollowQueue.Less b c = false →
      MainFollowQueue.Less a c = false := by
  simp only [MainFollowQueue.Less]
  simp
  omega

/-! ## Engine constants

`service.go` lines 14-19 and `main.go` lines 511-518, in seconds:
`maxFollowsPerHour = 50`, `maxRetries = 3`, `retryDelay = 5 * time.Minute`,
`followCooldown = 24 * time.Hour`, one hour = 3600 s. -/

def maxFollowsPerHour : Nat := 50
def maxRetries : Int := 3
def retryDelay : Int := 300
def followCooldown : Int := 86400
def hourSeconds : Int := 3600

/-! ## internal/queue (queue.go) -/

namespace Queue

/-- The item constructed by `Queue.Push` (queue.go lines 25-33): a fresh
`FollowQueueItem` with `Attempts: user.Attempts` and `NextTry: time.Now()`. -/
def mkPushItem (user : TargetUser) (priority : Int) (now : Int) : FollowQueueItem :=
  { user := user, priority := priority, attempts := user.attempts, nextTry := now }

/-- `Queue.Push` (queue.go lines 25-33): build the item and `heap.Push` it,
under the `models.FollowQueue.Less` ordering. -/
def Push (q : List FollowQueueItem) (user : TargetUser) (priority : Int)
    (now : Int) : List FollowQueueItem :=
  heapPush FollowQueue.Less q (mkPushItem user priority now)

/-- `Queue.Pop` (queue.go lines 36-41): `heap.Pop`, or `nil` when empty. -/
def Pop (q : List FollowQueueItem) : Option (FollowQueueItem × List FollowQueueItem) :=
  heapPop FollowQueue.Less q

/-- `Queue.Peek` (queue.go lines 56-61): the root `items[0]`, or `nil`. -/
def Peek (q : List FollowQueueItem) : Option FollowQueueItem :=
  q.head?

end Queue

/-! ## internal/service (service.go) -/

/-- The mutable state of `service.Service` relevant to the engine:
the queue, the in-memory followed set, and the rate-governor counters. -/
structure ServiceState where
  queue : List FollowQueueItem
  followed : List String
  followCount : Nat
  followReset : Int
  lastFollow : Int
  deriving Repr

namespace Service

/-- `Service.AddToQueue` (service.go lines 139-150): skip when the in-memory
`followed` map holds the handle, otherwise `queue.Push(user, priority)`. -/
def AddToQueue (s : ServiceState) (user : TargetUser) (priority : Int)
    (now : Int) : ServiceState :=
  if s.followed.contains user.handle then s
  else { s with queue := Queue.Push s.queue user priority now }

/-- `Service.processFollowItem` (service.go lines 112-136), with the three
external effects (initial `SaveUser`, `api.FollowUser`, final `SaveUser`)
given as outcome oracles.  Returns (state, apiInvoked, returnedError).
The in-memory set, `lastFollow` and `followCount` are updated after the API
call succeeds and before the final persistence write. -/
def processFollowItem (s : ServiceState) (item : FollowQueueItem) (now : Int)
    (savePreOk apiOk saveFinalOk : Bool) : ServiceState × Bool × Bool :=
  if savePreOk = false then (s, false, true)
  else if apiOk = false then (s, true, true)
  else
    let s1 := { s with followed := item.user.handle :: s.followed,
                       lastFollow := now, followCount := s.followCount + 1 }
    if saveFinalOk = false then (s1, true, true) else (s1, true, false)

/-- The rate-limit check of `Service.ProcessFollowQueue` (service.go lines
76-84): blocked while the hourly ceiling is reached inside the window;
lazily resets the counter once the window has elapsed.
Returns (blocked, followCount, followReset). -/
def rateGate (followCount : Nat) (followReset now : Int) : Bool × Nat × Int :=
  if followCount ≥ maxFollowsPerHour then
    if now - followReset < hourSeconds then (true, followCount, followReset)
    else (false, 0, now)
  else (false, followCount, followReset)

/-- The error handling of `Service.ProcessFollowQueue` (service.go lines
98-107): when the popped item's `Attempts` is below `maxRetries`, increment
it, set `NextTry = now + retryDelay`, and `queue.Push(item.User,
item.Priority)`; otherwise drop.  Returns (queue, mutated item). -/
def handleFailure (q : List FollowQueueItem) (item : FollowQueueItem)
    (now : Int) : List FollowQueueItem × FollowQueueItem :=
  if item.attempts < maxRetries then
    let item2 := { item with attempts := item.attempts + 1,
                             nextTry := now + retryDelay }
    (Queue.Push q item.user item.priority now, item2)
  else (q, item)

/-- The state after the rate-limit block of `ProcessFollowQueue` ran without
blocking: the (possibly lazily reset) counter and window are written back. -/
def afterRate (s : ServiceState) (now : Int) : ServiceState :=
  { s with followCount := (rateGate s.followCount s.followReset now).2.1,
           followReset := (rateGate s.followCount s.followReset now).2.2 }

/-- The tail of a `ProcessFollowQueue` iteration (service.go lines 87-107):
cooldown gate, pop, `processFollowItem`, and the retry path on error.
Returns (state, apiInvoked, itemDispatched). -/
def dispatchStep (s1 : ServiceState) (now : Int)
    (savePreOk apiOk saveFinalOk : Bool) : ServiceState × Bool × Bool :=
  if now - s1.lastFollow < followCooldown then (s1, false, false)
  else
    match heapPop FollowQueue.Less s1.queue with
    | none => (s1, false, false)
    | some (item, rest) =>
      match processFollowItem { s1 with queue := rest } item now
          savePreOk apiOk saveFinalOk with
      | (s3, invoked, isErr) =>
        if isErr then
          ({ s3 with queue := (handleFailure s3.queue item now).1 }, invoked, true)
        else (s3, invoked, true)

/-- One iteration of the `Service.ProcessFollowQueue` loop (service.go lines
56-108): empty-queue wait, eligibility check on the peeked root, rate gate,
then cooldown gate, pop and process, rescheduling on error.
Returns (state, apiInvoked, itemDispatched). -/
def iterate (s : ServiceState) (now : Int) (savePreOk apiOk saveFinalOk : Bool) :
    ServiceState × Bool × Bool :=
  match Queue.Peek s.queue with
  | none => (s, false, false)
  | some top =>
    if now < top.nextTry then (s, false, false)
    else if (rateGate s.followCount s.followReset now).1 then (s, false, false)
    else dispatchStep (afterRate s now) now savePreOk apiOk saveFinalOk

end Service

/-! ## main.go engine (the `App` type, lines 505-1380) -/

namespace App

/-- The item constructed by `App.addToFollowQueue` (main.go lines 1224-1236):
`Attempts: 0`, `NextTry: time.Now()`. -/
def enqueueItem (user : TargetUser) (priority : Int) (now : Int) : FollowQueueItem :=
  { user := user, priority := priority, attempts := 0, nextTry := now }

/-- `App.addToFollowQueue` (main.go lines 1224-1236): `heap.Push` under the
main.go `FollowQueue.Less` ordering (NextTry only). -/
def addToFollowQueue (q : List FollowQueueItem) (user : TargetUser)
    (priority : Int) (now : Int) : List FollowQueueItem :=
  heapPush MainFollowQueue.Less q (enqueueItem user priority now)

/-- The error handling of `App.processFollowQueue` (main.go lines 1268-1278):
`item.Attempts++`; if still below `maxRetries`, set
`NextTry = now + retryDelay * Attempts` and `heap.Push` the same item back,
else drop it.  Returns (queue, mutated item). -/
def handleFailure (q : List FollowQueueItem) (item : FollowQueueItem)
    (now : Int) : List FollowQueueItem × FollowQueueItem :=
  let item1 := { item with attempts := item.attempts + 1 }
  if item1.attempts < maxRetries then
    let item2 := { item1 with nextTry := now + retryDelay * item1.attempts }
    (heapPush MainFollowQueue.Less q item2, item2)
  else (q, item1)

/-- The lazy window reset of `App.processFollowQueue` (main.go lines
1245-1248): once `now` has passed `followReset` (the window end), zero the
counter and set the next window end one hour ahead. -/
def rateGateReset (followCount : Nat) (followReset now : Int) : Nat × Int :=
  if followReset < now then ((0 : Nat), now + hourSeconds)
  else (followCount, followReset)

/-- The rate-limit logic of `App.processFollowQueue` (main.go lines
1242-1254): lazy reset, then the ceiling check.
Returns (blocked, followCount, followReset). -/
def rateGate (followCount : Nat) (followReset now : Int) : Bool × Nat × Int :=
  if (rateGateReset followCount followReset now).1 ≥ maxFollowsPerHour then
    (true, (rateGateReset followCount followReset now).1,
      (rateGateReset followCount followReset now).2)
  else
    (false, (rateGateReset followCount followReset now).1,
      (rateGateReset followCount followReset now).2)

/-- `App.followUser` (main.go lines 1065-1184).  External effects are
oracles: `dbRow` is the `QueryRow` result over `handle = ? OR did = ?`
(`none` when the query errs, otherwise the stored `followed` flag and DID),
`didOk` whether DID resolution succeeds, `apiStatusOk` whether the follow
request returns 200, `apiBodyAlready` whether a non-200 body contains
"already following", `dbUpdateOk` whether the `UPDATE users SET followed = 1`
succeeds.  Returns (in-memory followed set, followInvoked, returnedError). -/
def followUser (followed : List String) (key : String)
    (dbRow : Option (Bool × String)) (simulate : Bool)
    (didOk apiStatusOk apiBodyAlready dbUpdateOk : Bool) :
    List String × Bool × Bool :=
  if followed.contains key then (followed, false, false)
  else
    match dbRow with
    | some (true, _) => (key :: followed, false, false)
    | _ =>
      if simulate then (followed, false, false)
      else if didOk = false then (followed, false, true)
      else if apiStatusOk then
        (key :: followed, true, if dbUpdateOk then false else true)
      else if apiBodyAlready then (key :: followed, true, false)
      else (followed, true, true)

/-- The queue states reachable in the main.go engine: the empty queue,
enqueue via `addToFollowQueue`, and the two `processFollowQueue` outcomes of
a popped ready item (success removes it; failure runs `handleFailure`). -/
inductive QueueReachable : List FollowQueueItem → Prop where
  | empty : QueueReachable []
  | enqueue {q : List FollowQueueItem} (user : TargetUser) (priority now : Int) :
      QueueReachable q → QueueReachable (addToFollowQueue q user priority now)
  | popSuccess {q : List FollowQueueItem} {item : FollowQueueItem}
      {rest : List FollowQueueItem} :
      QueueReachable q → heapPop MainFollowQueue.Less q = some (item, rest) →
      QueueReachable rest
  | popFailure {q : List FollowQueueItem} {item : FollowQueueItem}
      {rest : List FollowQueueItem} (now : Int) :
      QueueReachable q → heapPop MainFollowQueue.Less q = some (item, rest) →
      QueueReachable (handleFailure rest item now).1

/-- Inductive invariant: every queue-resident item of the main.go engine has
at most `maxRetries - 1 = 2` attempts. -/
theorem QueueReachable_attempts_le {q : List FollowQueueItem}
    (h : QueueReachable q) : ∀ it ∈ q, it.attempts + 1 ≤ maxRetries := by
  induction h with
  | empty => intro it hit; simp at hit
  | enqueue user priority now _ ih =>
    intro it hit
    have := (heapPush_perm MainFollowQueue.Less _ _).mem_iff.mp hit
    rcases List.mem_cons.mp this with heq | hmem
    · rw [heq]
      simp [enqueueItem, maxRetries]
    · exact ih it hmem
  | @popSuccess q item rest _ hpop ih =>
    intro it hit
    have hperm := (heapPop_some _ hpop).1
    exact ih it (hperm.mem_iff.mp (List.mem_cons_of_mem item hit))
  | @popFailure q item rest now _ hpop ih =>
    intro it hit
    have hperm := (heapPop_some _ hpop).1
    have hitem : item.attempts + 1 ≤ maxRetries :=
      ih item (hperm.mem_iff.mp (List.mem_cons_self item rest))
    simp only [handleFailure] at hit
    split at hit
    · rename_i hlt
      have := (heapPush_perm MainFollowQueue.Less _ _).mem_iff.mp hit
      rcases List.mem_cons.mp this with heq | hmem
      · rw [heq]
        simpa using hlt
      · exact ih it (hperm.mem_iff.mp (List.mem_cons_of_mem item hmem))
    · exact ih it (hperm.mem_iff.mp (List.mem_cons_of_mem item hit))

end App

/-! ## Persistence (internal/db part_003; the two `saveUserToDB` variants) -/

/-- A row of the 9-column `users` table (part_003 / main.go schema),
without the `handle` primary key. -/
structure UserRow where
  did : String
  followers : Int
  savedOn : Int
  followed : Bool
  lastChecked : Int
  followDate : Int
  priority : Int
  attempts : Int
  deriving DecidableEq, Repr

/-- The row written for a `TargetUser`. -/
def rowOf (u : TargetUser) : UserRow :=
  { did := u.did, followers := u.followers, savedOn := u.savedOn,
    followed := u.followed, lastChecked := u.lastChecked,
    followDate := u.followDate, priority := u.priority, attempts := u.attempts }

/-- `Store.SaveUser` (part_003 lines 118-140), and identically
`App.saveUserToDB` of main.go (lines 796-818): SQLite
`INSERT OR REPLACE INTO users ...` — the row keyed by `handle` is replaced
wholesale with the incoming values. -/
def Store.SaveUser (db : String → Option UserRow) (u : TargetUser) :
    String → Option UserRow :=
  fun h => if h = u.handle then some (rowOf u) else db h

/-- A row of the 5-column `users` table of the part_006 app variant. -/
structure UserRow5 where
  did : String
  followers : Int
  savedOn : Int
  followed : Bool
  deriving DecidableEq, Repr

/-- `App.saveUserToDB` of part_006 (lines 707-734): SQLite upsert
`INSERT INTO users ... ON CONFLICT(handle) DO UPDATE SET ...,
followed = CASE WHEN users.followed = 1 THEN 1 ELSE excluded.followed END`. -/
def saveUserToDB_upsert (db : String → Option UserRow5) (u : TargetUser) :
    String → Option UserRow5 :=
  fun h =>
    if h = u.handle then
      match db u.handle with
      | none => some (UserRow5.mk u.did u.followers u.savedOn u.followed)
      | some old => some (UserRow5.mk u.did u.followers u.savedOn
          (if old.followed then true else u.followed))
    else db h

/-! ## Concrete fixtures for witnesses and counterexamples -/

/-- A high-priority candidate (priority tier 3, 20000 followers). -/
def alice : TargetUser :=
  { handle := "alice", did := "did:plc:alice", followers := 20000,
    savedOn := 0, followed := false, lastChecked := 0, followDate := 0,
    priority := 3, attempts := 0 }

/-- A low-priority candidate (priority tier 1, 50 followers). -/
def bob : TargetUser :=
  { handle := "bob", did := "did:plc:bob", followers := 50,
    savedOn := 0, followed := false, lastChecked := 0, followDate := 0,
    priority := 1, attempts := 0 }

/-- A candidate already marked followed in the persisted store. -/
def carol : TargetUser :=
  { handle := "carol", did := "did:plc:carol", followers := 7,
    savedOn := 0, followed := true, lastChecked := 0, followDate := 0,
    priority := 1, attempts := 0 }

/-- An empty service state. -/
def emptyServiceState : ServiceState :=
  { queue := [], followed := [], followCount := 0, followReset := 0,
    lastFollow := -1000000 }

/-- A high-priority queue item with a later `NextTry`. -/
def itemA : FollowQueueItem :=
  { user := alice, priority := 3, attempts := 0, nextTry := 10 }

/-- A low-priority queue item with an earlier `NextTry`. -/
def itemB : FollowQueueItem :=
  { user := bob, priority := 1, attempts := 0, nextTry := 0 }

/-- A queue item that has failed once already. -/
def failedOnceItem : FollowQueueItem :=
  { user := bob, priority := 1, attempts := 1, nextTry := 0 }

theorem heapPush_length {α : Type} [Inhabited α] (lt : α → α → Bool)
    (l : List α) (x : α) : (heapPush lt l x).length = l.length + 1 := by
  rw [(heapPush_perm lt l x).length_eq]
  rfl

/-! ## Claims -/

/-- C5, counterexample: `Store.SaveUser` (part_003 lines 118-140) is an
SQLite `INSERT OR REPLACE`: with "carol" stored as `followed = true`, saving
a refresh record for the same handle carrying `followed = false` leaves the
stored flag `false` — the upsert does not preserve `followed = true`. -/
theorem C5_counterexample :
    (fun h => if h = "carol" then some (rowOf carol) else none) "carol"
        = some (rowOf carol) ∧
    (rowOf carol).followed = true ∧
    ((Store.SaveUser (fun h => if h = "carol" then some (rowOf carol) else none)
        { carol with followed := false, followers := 9 }) "carol").map
      UserRow.followed = some false := by
  refine ⟨by decide, by decide, by decide⟩

/-- C5 (amended): only the part_006 variant of the upsert
(`App.saveUserToDB`, part_006 lines 707-734, `ON CONFLICT ... CASE WHEN
users.followed = 1 THEN 1 ELSE excluded.followed END`) preserves
`followed = true` across an update that carries `followed = false`;
`Store.SaveUser` (part_003) and main.go's `saveUserToDB` use
`INSERT OR REPLACE`, which overwrites the flag with the incoming value. -/
theorem C5_amended_upsert_preserves_followed :
    ∀ (db : String → Option UserRow5) (u : TargetUser) (old : UserRow5),
      db u.handle = some old → old.followed = true →
      ∃ r : UserRow5, saveUserToDB_upsert db u u.handle = some r ∧
        r.followed = true ∧ r.followers = u.followers := by
  intro db u old hdb hf
  simp only [saveUserToDB_upsert, if_pos rfl, hdb, hf]
  exact ⟨_, rfl, by simp, rfl⟩

/-- C5 witness: the amended preservation theorem at a concrete store. -/
theorem C5_witness :
    ∃ r : UserRow5, saveUserToDB_upsert
        (fun h => if h = "carol" then some (UserRow5.mk "did:plc:carol" 7 0 true)
          else none)
        { carol with followed := false, followers := 9 } "carol" = some r ∧
      r.followed = true ∧ r.followers = 9 :=
  C5_amended_upsert_preserves_followed _
    { carol with followed := false, followers := 9 }
    (UserRow5.mk "did:plc:carol" 7 0 true) (by decide) (by decide)

/-- C8, counterexample: in `Service.processFollowItem` (service.go lines
112-136) the in-memory `followed` map, `lastFollow` and `followCount` are
updated *before* the final `SaveUser`; when that persistence write fails the
error is returned, but the handle is already marked followed in memory and
the follow already counted — contradicting "the in-memory followed set is
not marked for that handle, no follow is counted". -/
theorem C8_counterexample :
    (Service.processFollowItem emptyServiceState itemB 777 true true false).2.2
        = true ∧
    (Service.processFollowItem emptyServiceState itemB 777 true true false).1.followed
        = ["bob"] ∧
    (Service.processFollowItem emptyServiceState itemB 777 true true false).1.followCount
        = 1 ∧
    (Service.processFollowItem emptyServiceState itemB 777 true true false).1.lastFollow
        = 777 := by
  refine ⟨by decide, by decide, by decide, by decide⟩

/-- C8 (amended): when the final persistence write of the success commit
fails, `processFollowItem` surfaces the error (so the caller's retry path
reschedules the item while attempts are below the ceiling), but the
in-memory followed set has already been marked, `lastFollow` set and the
follow counted before the failing write — memory and storage can diverge. -/
theorem C8_amended_commit_failure :
    ∀ (s : ServiceState) (item : FollowQueueItem) (now : Int),
      Service.processFollowItem s item now true true false
        = ({ s with followed := item.user.handle :: s.followed,
                    lastFollow := now,
                    followCount := s.followCount + 1 }, true, true) ∧
      (∀ q : List FollowQueueItem, item.attempts < maxRetries →
        ((Service.handleFailure q item now).1).length = q.length + 1) := by
  intro s item now
  constructor
  · simp [Service.processFollowItem]
  · intro q hlt
    simp only [Service.handleFailure, if_pos hlt]
    exact heapPush_length _ _ _

/-- C8 witness: the amended theorem at a concrete state and item. -/
theorem C8_witness :
    Service.processFollowItem emptyServiceState itemB 777 true true false
        = ({ emptyServiceState with followed := ["bob"],
                                    lastFollow := 777,
                                    followCount := 1 }, true, true) ∧
      ((Service.handleFailure [] itemB 777).1).length = 1 :=
  ⟨(C8_amended_commit_failure emptyServiceState itemB 777).1,
    (C8_amended_commit_failure emptyServiceState itemB 777).2 [] (by decide)⟩

/-- C9, counterexample: nothing enforces one item per handle — calling
`Service.AddToQueue` twice for the same not-yet-followed handle leaves two
queue items with that handle (`Queue.Push` inserts unconditionally and the
only guard is the in-memory followed map). -/
theorem C9_counterexample :
    (Service.AddToQueue (Service.AddToQueue emptyServiceState alice 3 0)
        alice 3 0).queue
      = [Queue.mkPushItem alice 3 0, Queue.mkPushItem alice 3 0] ∧
    (Queue.mkPushItem alice 3 0).user.handle = "alice" := by
  constructor
  · simp [Service.AddToQueue, emptyServiceState, Queue.Push, Queue.mkPushItem,
      heapPush, heapUp, parentIdx, lswap, FollowQueue.Less, alice]
  · rfl

/-- C9 (amended): per-handle uniqueness is not enforced: `AddToQueue` skips
only handles in the in-memory followed map, and otherwise pushes
unconditionally — even when an item with the same handle is already in the
queue — so duplicates can coexist. -/
theorem C9_amended_no_dedup :
    (∀ (s : ServiceState) (user : TargetUser) (priority now : Int),
      s.followed.contains user.handle = true →
        Service.AddToQueue s user priority now = s) ∧
    (∀ (s : ServiceState) (user : TargetUser) (priority now : Int),
      s.followed.contains user.handle = false →
        ((Service.AddToQueue s user priority now).queue).length
          = s.queue.length + 1) := by
  constructor
  · intro s user priority now hmem
    unfold Service.AddToQueue
    rw [hmem]
    simp
  · intro s user priority now hmem
    unfold Service.AddToQueue
    rw [hmem]
    simp only [Bool.false_eq_true, if_false, Queue.Push]
    exact heapPush_length _ _ _

/-- C9 witness: the amended theorem at concrete states. -/
theorem C9_witness :
    Service.AddToQueue { emptyServiceState with followed := ["alice"] }
        alice 3 0 = { emptyServiceState with followed := ["alice"] } ∧
    ((Service.AddToQueue (Service.AddToQueue emptyServiceState alice 3 0)
        alice 3 0).queue).length
      = ((Service.AddToQueue emptyServiceState alice 3 0).queue).length + 1 :=
  ⟨C9_amended_no_dedup.1 _ alice 3 0 (by decide),
    C9_amended_no_dedup.2 _ alice 3 0 (by decide)⟩

/-- C10: `Queue.Push` (queue.go lines 25-33) always builds a fresh item with
`NextTry = time.Now()` and `Attempts = user.Attempts`; in particular the
re-insertion after a failure (`service.go` lines 98-107 pushes
`item.User, item.Priority`) carries over neither the advanced `NextTry` nor
the incremented `Attempts` of the popped item, and a pushed item is
immediately eligible (`now.Before(NextTry)` is false for any `t ≥ now`). -/
theorem C10_push_fresh_item :
    (∀ (user : TargetUser) (priority now : Int),
      (Queue.mkPushItem user priority now).nextTry = now ∧
      (Queue.mkPushItem user priority now).attempts = user.attempts) ∧
    (∀ (q : List FollowQueueItem) (user : TargetUser) (priority now : Int),
      (Queue.Push q user priority now).Perm (Queue.mkPushItem user priority now :: q)) ∧
    (∀ (user : TargetUser) (priority now t : Int), now ≤ t →
      ¬ t < (Queue.mkPushItem user priority now).nextTry) ∧
    (∀ (q : List FollowQueueItem) (item : FollowQueueItem) (now : Int),
      item.attempts < maxRetries →
        (Service.handleFailure q item now).1
          = Queue.Push q item.user item.priority now) := by
  refine ⟨?_, ?_, ?_, ?_⟩
  · intro user priority now
    exact ⟨rfl, rfl⟩
  · intro q user priority now
    exact heapPush_perm _ _ _
  · intro user priority now t hle
    simp only [Queue.mkPushItem]
    omega
  · intro q item now hlt
    simp only [Service.handleFailure, if_pos hlt]

/-- C10 witness: the fresh-item properties at concrete values; the popped
item `failedOnceItem` has `attempts = 1` and `nextTry = 0`, yet the item its
failure re-pushes has `attempts = bob.attempts = 0` and `nextTry = now`. -/
theorem C10_witness :
    (Queue.mkPushItem bob 1 900).nextTry = 900 ∧
    (Queue.mkPushItem bob 1 900).attempts = bob.attempts ∧
    (Queue.Push [] bob 1 900).Perm [Queue.mkPushItem bob 1 900] ∧
    ¬ (905 : Int) < (Queue.mkPushItem bob 1 900).nextTry ∧
    (Service.handleFailure [] failedOnceItem 900).1 = Queue.Push [] bob 1 900 :=
  ⟨(C10_push_fresh_item.1 bob 1 900).1,
    (C10_push_fresh_item.1 bob 1 900).2,
    C10_push_fresh_item.2.1 [] bob 1 900,
    C10_push_fresh_item.2.2.1 bob 1 900 905 (by decide),
    C10_push_fresh_item.2.2.2 [] failedOnceItem 900 (by decide)⟩

/-- C6: the Rate Governor (service.go lines 76-84 and main.go lines
1242-1254) denies dispatch exactly while the success count has reached the
hourly ceiling of 50 and `now` is still inside the window, and it resets the
counter lazily inside the check — on the service side by
`followCount = 0; followReset = now` once an hour has passed since
`followReset`; on the main.go side by `followCount = 0;
followReset = now + 1h` once `now` has passed the window end.  When the
service gate blocks, the loop iteration dispatches nothing and leaves the
queue untouched. -/
theorem C6_rate_governor :
    (∀ (count : Nat) (reset now : Int),
      maxFollowsPerHour ≤ count → now - reset < hourSeconds →
        Service.rateGate count reset now = (true, count, reset)) ∧
    (∀ (count : Nat) (reset now : Int),
      maxFollowsPerHour ≤ count → hourSeconds ≤ now - reset →
        Service.rateGate count reset now = (false, 0, now)) ∧
    (∀ (count : Nat) (reset now : Int), count < maxFollowsPerHour →
        Service.rateGate count reset now = (false, count, reset)) ∧
    (∀ (count : Nat) (reset now : Int),
      maxFollowsPerHour ≤ count → now ≤ reset →
        App.rateGate count reset now = (true, count, reset)) ∧
    (∀ (count : Nat) (reset now : Int), reset < now →
        App.rateGate count reset now = (false, 0, now + hourSeconds)) ∧
    (∀ (s : ServiceState) (now : Int) (o1 o2 o3 : Bool),
      (Service.rateGate s.followCount s.followReset now).1 = true →
        (Service.iterate s now o1 o2 o3).2.1 = false ∧
        (Service.iterate s now o1 o2 o3).1.queue = s.queue) := by
  refine ⟨?_, ?_, ?_, ?_, ?_, ?_⟩
  · intro count reset now hc hw
    simp only [Service.rateGate, if_pos hc, if_pos hw]
  · intro count reset now hc hw
    simp only [Service.rateGate, if_pos hc]
    rw [if_neg (by omega)]
  · intro count reset now hc
    simp only [Service.rateGate]
    rw [if_neg (by omega)]
  · intro count reset now hc hw
    unfold App.rateGate App.rateGateReset
    rw [if_neg (show ¬ reset < now by omega)]
    rw [if_pos (show (count, reset).1 ≥ maxFollowsPerHour from hc)]
  · intro count reset now hw
    unfold App.rateGate App.rateGateReset
    rw [if_pos hw]
    rw [if_neg (show ¬ ((0 : Nat), now + hourSeconds).1 ≥ maxFollowsPerHour by
      simp [maxFollowsPerHour])]
  · intro s now o1 o2 o3 hblocked
    cases hq : s.queue with
    | nil => constructor <;> simp [Service.iterate, Queue.Peek, hq]
    | cons top restq =>
      by_cases helig : now < top.nextTry
      · constructor <;> simp [Service.iterate, Queue.Peek, hq, helig]
      · constructor <;> simp [Service.iterate, Queue.Peek, hq, helig, hblocked]

/-- C4, counterexample: in the service engine a candidate whose persisted
`followed` flag is true is still dispatched — `AddToQueue` consults only the
in-memory map (empty here), so carol is enqueued, and the loop iteration
invokes `api.FollowUser` (`processFollowItem`, service.go lines 112-136,
never reads `item.User.Followed` or the store before calling the API). -/
theorem C4_counterexample :
    carol.followed = true ∧
    (Service.AddToQueue emptyServiceState carol 1 0).queue
        = [Queue.mkPushItem carol 1 0] ∧
    (Service.iterate
        { emptyServiceState with queue := [Queue.mkPushItem carol 1 0] }
        5 true true true).2.1 = true := by
  refine ⟨rfl, ?_, ?_⟩
  · simp [Service.AddToQueue, emptyServiceState, Queue.Push, Queue.mkPushItem,
      heapPush, heapUp, parentIdx, lswap, carol]
  · simp [Service.iterate, Queue.Peek, emptyServiceState, Service.rateGate,
      maxFollowsPerHour, hourSeconds, followCooldown, Service.afterRate,
      Service.dispatchStep, heapPop, heapDown, lswap, Queue.mkPushItem, carol,
      Service.processFollowItem]

/-- C4 (amended): in the main.go engine `followUser` (main.go lines
1065-1094) short-circuits before any network action when the key is in the
in-memory followed set or the store row says `followed`, returning `nil`
(a skip, not an error); in the service engine only the in-memory set is
consulted, and only at enqueue time (`AddToQueue`): the persisted
`followed` flag does not prevent dispatch. -/
theorem C4_amended_followed_skip :
    (∀ (followed : List String) (key : String) (dbRow : Option (Bool × String))
        (simulate o1 o2 o3 o4 : Bool),
      followed.contains key = true →
        App.followUser followed key dbRow simulate o1 o2 o3 o4
          = (followed, false, false)) ∧
    (∀ (followed : List String) (key d : String) (simulate o1 o2 o3 o4 : Bool),
      followed.contains key = false →
        App.followUser followed key (some (true, d)) simulate o1 o2 o3 o4
          = (key :: followed, false, false)) ∧
    (∀ (s : ServiceState) (user : TargetUser) (priority now : Int),
      s.followed.contains user.handle = true →
        Service.AddToQueue s user priority now = s) := by
  refine ⟨?_, ?_, ?_⟩
  · intro followed key dbRow simulate o1 o2 o3 o4 hmem
    unfold App.followUser
    rw [hmem]
    simp
  · intro followed key d simulate o1 o2 o3 o4 hmem
    unfold App.followUser
    rw [hmem]
    simp
  · intro s user priority now hmem
    unfold Service.AddToQueue
    rw [hmem]
    simp

/-- C4 witness: the skip paths at concrete inputs. -/
theorem C4_witness :
    App.followUser ["carol"] "carol" none false true true false true
        = (["carol"], false, false) ∧
    App.followUser [] "carol" (some (true, "did:plc:carol")) false true true
        false true = (["carol"], false, false) ∧
    Service.AddToQueue { emptyServiceState with followed := ["carol"] } carol 1 0
        = { emptyServiceState with followed := ["carol"] } :=
  ⟨C4_amended_followed_skip.1 ["carol"] "carol" none false true true false true
      (by decide),
    C4_amended_followed_skip.2.1 [] "carol" "did:plc:carol" false true true
      false true (by decide),
    C4_amended_followed_skip.2.2 _ carol 1 0 (by decide)⟩

/-- The two-item queue used by the C1 witness, built by two pushes under the
`models.FollowQueue.Less` ordering. -/
def qW : List FollowQueueItem :=
  heapPush FollowQueue.Less (heapPush FollowQueue.Less [] itemA) itemB

/-- C1, counterexample: the main.go comparator (`FollowQueue.Less`, main.go
lines 1189-1191) ignores priority: it orders `itemB` (priority 1, earlier
NextTry) before `itemA` (priority 3), and popping the two-item main.go queue
returns the strictly lower-priority item first — refuting the claim for the
main.go queue; §9 of the spec flags exactly this second comparator. -/
theorem C1_counterexample :
    MainFollowQueue.Less itemB itemA = true ∧
    itemB.priority < itemA.priority ∧
    popAll MainFollowQueue.Less
        (heapPush MainFollowQueue.Less (heapPush MainFollowQueue.Less [] itemA)
          itemB)
      = [itemB, itemA] := by
  refine ⟨by decide, by decide, ?_⟩
  have hq : heapPush MainFollowQueue.Less
      (heapPush MainFollowQueue.Less [] itemA) itemB = [itemB, itemA] := by
    simp [heapPush, heapUp, parentIdx, lswap, MainFollowQueue.Less, itemA, itemB]
  have hp1 : heapPop MainFollowQueue.Less [itemB, itemA]
      = some (itemB, [itemA]) := by
    simp [heapPop, heapDown, lswap, parentIdx, MainFollowQueue.Less, itemA, itemB]
  have hp2 : heapPop MainFollowQueue.Less [itemA] = some (itemA, []) := by
    simp [heapPop, heapDown, lswap, itemA]
  rw [hq, popAll_of_heapPop_some _ hp1, popAll_of_heapPop_some _ hp2, popAll_nil]

/-- C1 (amended): for the `models.FollowQueue` comparator used by
`internal/queue` (part_004 lines 60-67) the claim holds: the comparator
orders by priority descending, then by earlier `NextTry`; and for every heap
state, successive pops return the items as a permutation of the queue in
which no later item has strictly higher priority, and among equal priorities
the earlier `NextTry` comes first. -/
theorem C1_amended_priority_order :
    (∀ a b : FollowQueueItem,
      FollowQueue.Less a b = true ↔
        b.priority < a.priority ∨
          (a.priority = b.priority ∧ a.nextTry < b.nextTry)) ∧
    (∀ q : List FollowQueueItem, heapInv FollowQueue.Less q →
      (popAll FollowQueue.Less q).Perm q ∧
      ∀ i j, j < (popAll FollowQueue.Less q).length → i < j →
        ((popAll FollowQueue.Less q).getD j default).priority ≤
            ((popAll FollowQueue.Less q).getD i default).priority ∧
          (((popAll FollowQueue.Less q).getD j default).priority =
              ((popAll FollowQueue.Less q).getD i default).priority →
            ((popAll FollowQueue.Less q).getD i default).nextTry ≤
              ((popAll FollowQueue.Less q).getD j default).nextTry)) := by
  constructor
  · exact FollowQueueLess_iff
  · intro q hInv
    refine ⟨popAll_perm _ q.length q le_rfl, ?_⟩
    have hpw := popAll_sorted FollowQueueLess_asym FollowQueueLess_trans
      FollowQueueLess_negtrans q.length q le_rfl hInv
    rw [List.pairwise_iff_getElem] at hpw
    intro i j hj hij
    have hi : i < (popAll FollowQueue.Less q).length := by omega
    have hthis := hpw i j hi hj hij
    rw [getD_eq_getElem _ hi, getD_eq_getElem _ hj]
    rw [← Bool.not_eq_true, FollowQueueLess_iff] at hthis
    constructor
    · omega
    · intro heq
      omega

/-- C1 witness: a concrete two-item heap state satisfies the invariant and
its pops come out as a permutation in priority order. -/
theorem C1_witness :
    heapInv FollowQueue.Less qW ∧ (popAll FollowQueue.Less qW).Perm qW :=
  have h0 : heapInv FollowQueue.Less ([] : List FollowQueueItem) := by
    intro j hj hlen
    simp at hlen
  have h1 : heapInv FollowQueue.Less qW :=
    heapPush_heapInv FollowQueueLess_asym FollowQueueLess_trans
      FollowQueueLess_negtrans
      (heapPush_heapInv FollowQueueLess_asym FollowQueueLess_trans
        FollowQueueLess_negtrans h0 itemA) itemB
  ⟨h1, (C1_amended_priority_order.2 qW h1).1⟩

/-- In both branches of the main.go failure handler the mutated item's
attempt counter is the post-increment value. -/
theorem App_handleFailure_attempts (q : List FollowQueueItem)
    (item : FollowQueueItem) (now : Int) :
    (App.handleFailure q item now).2.attempts = item.attempts + 1 := by
  simp only [App.handleFailure]
  split <;> rfl

/-- C2: in the main.go engine every reachable queue state holds only items
with `Attempts ≤ 2`, so the post-increment attempt count of a failed
dispatch never exceeds the retry ceiling of 3, and when it reaches 3 the
failure handler returns the remaining queue unchanged — the item is dropped,
not reinserted.  The service failure handler (service.go lines 98-107)
likewise caps the increment at 3 and drops without reinsertion once
`Attempts` has reached the ceiling. -/
theorem C2_retry_ceiling :
    ∀ (q : List FollowQueueItem), App.QueueReachable q →
      (∀ it ∈ q, it.attempts + 1 ≤ maxRetries) ∧
      (∀ (item : FollowQueueItem) (rest : List FollowQueueItem) (now : Int),
        heapPop MainFollowQueue.Less q = some (item, rest) →
          (App.handleFailure rest item now).2.attempts ≤ maxRetries ∧
          (maxRetries ≤ (App.handleFailure rest item now).2.attempts →
            (App.handleFailure rest item now).1 = rest)) ∧
      (∀ (q2 : List FollowQueueItem) (item : FollowQueueItem) (now : Int),
        item.attempts + 1 ≤ maxRetries →
          (Service.handleFailure q2 item now).2.attempts ≤ maxRetries) ∧
      (∀ (q2 : List FollowQueueItem) (item : FollowQueueItem) (now : Int),
        maxRetries ≤ item.attempts →
          Service.handleFailure q2 item now = (q2, item)) := by
  intro q hreach
  have hinv := App.QueueReachable_attempts_le hreach
  refine ⟨hinv, ?_, ?_, ?_⟩
  · intro item rest now hpop
    have hperm := (heapPop_some _ hpop).1
    have hitem := hinv item (hperm.mem_iff.mp (List.mem_cons_self _ _))
    rw [App_handleFailure_attempts]
    refine ⟨hitem, ?_⟩
    intro hceil
    simp only [App.handleFailure]
    split
    · rename_i hlt
      exfalso
      omega
    · rfl
  · intro q2 item now hle
    simp only [Service.handleFailure]
    split
    · simpa using hle
    · rename_i hge
      simp only [maxRetries] at *
      omega
  · intro q2 item now hge
    simp only [Service.handleFailure]
    rw [if_neg (by omega)]

/-- C2 witness: a queue reached by enqueuing alice holds only items with
attempts below the ceiling, and the handler facts at the popped item. -/
theorem C2_witness :
    App.QueueReachable (App.addToFollowQueue [] alice 3 0) ∧
    (∀ it ∈ App.addToFollowQueue [] alice 3 0, it.attempts + 1 ≤ maxRetries) ∧
    (Service.handleFailure [] { itemB with attempts := 3 } 50
      = ([], { itemB with attempts := 3 })) :=
  have hreach : App.QueueReachable (App.addToFollowQueue [] alice 3 0) :=
    App.QueueReachable.enqueue alice 3 0 App.QueueReachable.empty
  ⟨hreach, (C2_retry_ceiling _ hreach).1,
    (C2_retry_ceiling _ hreach).2.2.2 [] { itemB with attempts := 3 } 50 (by decide)⟩

/-- C3, counterexample: the service reschedule (service.go lines 100-106)
uses a constant delay, not `now + attempts * baseDelay`: for an item on its
second failure (post-increment attempts = 2) at `now = 1000` the claim
demands eligible time 1600, but the code sets the mutated item's `NextTry`
to 1300, and the item actually re-pushed into the queue (built by
`Queue.Push` from `item.User`) has `NextTry = 1000` and `Attempts = 0`. -/
theorem C3_counterexample :
    (Service.handleFailure [] failedOnceItem 1000).2.attempts = 2 ∧
    (Service.handleFailure [] failedOnceItem 1000).2.nextTry = 1300 ∧
    (1300 : Int) ≠ 1000 + 2 * 300 ∧
    (Service.handleFailure [] failedOnceItem 1000).1
      = [{ user := bob, priority := 1, attempts := 0, nextTry := 1000 }] ∧
    (1000 : Int) ≠ 1000 + 2 * 300 := by
  refine ⟨by decide, by decide, by decide, ?_, by decide⟩
  simp [Service.handleFailure, failedOnceItem, maxRetries, Queue.Push,
    Queue.mkPushItem, heapPush, heapUp, parentIdx, lswap, bob]

/-- C3 (amended): the linear backoff holds in the main.go engine
(main.go lines 1268-1278): a failure increments `Attempts` and, while below
the ceiling, reschedules the same item with
`NextTry = now + Attempts * retryDelay` — 5 minutes after the first failure,
10 after the second — and the third failure drops the item, leaving the
remaining queue unchanged.  The service engine instead uses a constant
5-minute delay which is, moreover, not carried into the re-pushed item. -/
theorem C3_amended_linear_backoff :
    ∀ (q : List FollowQueueItem) (item : FollowQueueItem) (now : Int),
      (App.handleFailure q item now).2.attempts = item.attempts + 1 ∧
      (item.attempts + 1 < maxRetries →
        (App.handleFailure q item now).2.nextTry
            = now + retryDelay * (item.attempts + 1) ∧
        ((App.handleFailure q item now).1).Perm
          ((App.handleFailure q item now).2 :: q)) ∧
      (item.attempts = 0 →
        (App.handleFailure q item now).2.nextTry = now + 300) ∧
      (item.attempts = 1 →
        (App.handleFailure q item now).2.nextTry = now + 600) ∧
      (item.attempts = 2 →
        App.handleFailure q item now = (q, { item with attempts := 3 })) := by
  intro q item now
  refine ⟨App_handleFailure_attempts q item now, ?_, ?_, ?_, ?_⟩
  · intro hlt
    simp only [App.handleFailure]
    split
    · exact ⟨rfl, heapPush_perm _ _ _⟩
    · rename_i hge
      exfalso
      simp at hge
      omega
  · intro h0
    simp only [App.handleFailure, h0]
    split
    · simp [retryDelay]
    · rename_i hge
      exfalso
      simp [maxRetries] at hge
  · intro h1
    simp only [App.handleFailure, h1]
    split
    · simp [retryDelay]
    · rename_i hge
      exfalso
      simp [maxRetries] at hge
  · intro h2
    simp only [App.handleFailure, h2]
    split
    · rename_i hlt
      exfalso
      simp [maxRetries] at hlt
    · simp

/-- C3 witness: the backoff arithmetic at concrete attempt counts. -/
theorem C3_witness :
    ((App.handleFailure [] itemB 1000).2.nextTry = 1000 + 300) ∧
    ((App.handleFailure [] failedOnceItem 1000).2.nextTry = 1000 + 600) ∧
    (App.handleFailure [] { itemB with attempts := 2 } 1000
      = ([], { itemB with attempts := 3 })) :=
  ⟨(C3_amended_linear_backoff [] itemB 1000).2.2.1 rfl,
    (C3_amended_linear_backoff [] failedOnceItem 1000).2.2.2.1 rfl,
    (C3_amended_linear_backoff [] { itemB with attempts := 2 } 1000).2.2.2.2 rfl⟩

/-- C7: the cooldown (service.go lines 87-91 and 127-131) is global: a loop
iteration can invoke the follow action only when at least 24 hours have
passed since `lastFollow`; while the cooldown is active (and the rate gate
passes), nothing is dispatched and the queue and `lastFollow` are untouched;
`lastFollow` is set to the current time by every successful (or
post-API-call) `processFollowItem`, independent of the rate-window count. -/
theorem C7_global_cooldown :
    (∀ (s : ServiceState) (now : Int) (o1 o2 o3 : Bool),
      (Service.iterate s now o1 o2 o3).2.1 = true →
        followCooldown ≤ now - s.lastFollow) ∧
    (∀ (s : ServiceState) (item : FollowQueueItem) (now : Int) (o3 : Bool),
      (Service.processFollowItem s item now true true o3).1.lastFollow = now) ∧
    (∀ (s : ServiceState) (now : Int) (o1 o2 o3 : Bool),
      now - s.lastFollow < followCooldown →
        (Service.iterate s now o1 o2 o3).2.1 = false ∧
        (Service.iterate s now o1 o2 o3).1.queue = s.queue ∧
        (Service.iterate s now o1 o2 o3).1.lastFollow = s.lastFollow) := by
  refine ⟨?_, ?_, ?_⟩
  · intro s now o1 o2 o3 hinv
    by_contra hcool
    cases hq : s.queue with
    | nil => simp [Service.iterate, Queue.Peek, hq] at hinv
    | cons top restq =>
      by_cases helig : now < top.nextTry
      · simp [Service.iterate, Queue.Peek, hq, helig] at hinv
      · by_cases hblk : (Service.rateGate s.followCount s.followReset now).1 = true
        · simp [Service.iterate, Queue.Peek, hq, helig, hblk] at hinv
        · simp [Service.iterate, Queue.Peek, hq, helig, hblk,
            Service.dispatchStep, Service.afterRate,
            show now - s.lastFollow < followCooldown by omega] at hinv
  · intro s item now o3
    cases o3 <;> simp [Service.processFollowItem]
  · intro s now o1 o2 o3 hcool
    cases hq : s.queue with
    | nil =>
      refine ⟨?_, ?_, ?_⟩ <;> simp [Service.iterate, Queue.Peek, hq]
    | cons top restq =>
      by_cases helig : now < top.nextTry
      · refine ⟨?_, ?_, ?_⟩ <;> simp [Service.iterate, Queue.Peek, hq, helig]
      · by_cases hblk : (Service.rateGate s.followCount s.followReset now).1 = true
        · refine ⟨?_, ?_, ?_⟩ <;>
            simp [Service.iterate, Queue.Peek, hq, helig, hblk]
        · refine ⟨?_, ?_, ?_⟩ <;>
            simp [Service.iterate, Queue.Peek, hq, helig, hblk,
              Service.dispatchStep, Service.afterRate, hcool]

/-- C7 witness: with a success at time 0, a dispatch attempt at time 100 is
blocked (queue and `lastFollow` unchanged, nothing invoked); and the commit
path stamps `lastFollow` with the dispatch time. -/
theorem C7_witness :
    ((Service.iterate { emptyServiceState with queue := [itemB],
                                               lastFollow := 0 } 100
        true true true).2.1 = false ∧
      (Service.iterate { emptyServiceState with queue := [itemB],
                                                lastFollow := 0 } 100
        true true true).1.queue = [itemB] ∧
      (Service.iterate { emptyServiceState with queue := [itemB],
                                                lastFollow := 0 } 100
        true true true).1.lastFollow = 0) ∧
    (Service.processFollowItem emptyServiceState itemB 777 true true true).1.lastFollow
      = 777 :=
  ⟨C7_global_cooldown.2.2 _ 100 true true true (by decide),
    C7_global_cooldown.2.1 emptyServiceState itemB 777 true⟩

/-- C6 witness: the gate theorems at concrete counters and times. -/
theorem C6_witness :
    Service.rateGate 50 0 100 = (true, 50, 0) ∧
    Service.rateGate 50 0 3600 = (false, 0, 3600) ∧
    Service.rateGate 49 0 100 = (false, 49, 0) ∧
    App.rateGate 50 200 100 = (true, 50, 200) ∧
    App.rateGate 50 200 300 = (false, 0, 300 + hourSeconds) ∧
    ((Service.iterate { emptyServiceState with queue := [itemB],
                                               followCount := 50,
                                               followReset := 0 } 100
        true true true).2.1 = false ∧
      (Service.iterate { emptyServiceState with queue := [itemB],
                                                followCount := 50,
                                                followReset := 0 } 100
        true true true).1.queue = [itemB]) :=
  ⟨C6_rate_governor.1 50 0 100 (by decide) (by decide),
    C6_rate_governor.2.1 50 0 3600 (by decide) (by decide),
    C6_rate_governor.2.2.1 49 0 100 (by decide),
    C6_rate_governor.2.2.2.1 50 200 100 (by decide) (by decide),
    C6_rate_governor.2.2.2.2.1 50 200 300 (by decide),
    C6_rate_governor.2.2.2.2.2 _ 100 true true true (by decide)⟩
